import Mathlib

/-!
# Shallow embedding of the cpp-trading-engine core

This file embeds the matching-engine core of the repository
(`include/types.hpp`, `include/order.hpp`, `include/order_book.hpp`,
`src/order_book.cpp`, `src/risk_manager.cpp`, `src/matching_engine.cpp`)
into Lean and proves the specification claims about it.

Modelling conventions:
* `Quantity` (`int64_t`) is modelled by `Int`; the claims never reach the
  overflow range, and signed overflow would be undefined behaviour in the
  source anyway.
* `Price` (`double`) is modelled by `Rat`.  Every price arithmetic the
  claims touch (comparisons, the `1e12` market sentinel, products with a
  zero price) is exact in binary floating point at the inputs considered,
  so the rational model is faithful there.
* `Timestamp` (`std::chrono::steady_clock::time_point`) is modelled by a
  `Nat` number of seconds supplied by the caller (`now` parameters); the
  clock is monotone, so `now` is never smaller than a recorded start.
* `std::map<Price, PriceLevel>` is modelled by a list of levels kept in key
  order (ascending for asks, descending for bids); `begin()` is the head.
* `std::unordered_map` is modelled by an association list with unique keys
  (uniqueness is maintained by the operations themselves: an id is inserted
  only after a failed lookup).
* `RiskCheckResult` carries a `passed` flag and a human-readable reason
  string; only the flag is ever branched on, so checks return `Bool`.
* The redundant `bid_orders_` / `ask_orders_` pointer caches of `OrderBook`
  are not modelled: no operation reads them except the size accessors,
  which no claim mentions.
* Where the C++ would dereference a dangling iterator (undefined
  behaviour, unreachable from consistent states), the model returns the
  state unchanged; the comment at each such spot records this.
-/

namespace Engine

/-- `enum class Side` from types.hpp. -/
inductive Side where
  | Buy
  | Sell
deriving DecidableEq, Repr

/-- `enum class OrderType` from types.hpp. -/
inductive OrderType where
  | Limit
  | Market
  | IOC
  | FOK
deriving DecidableEq, Repr

/-- `enum class OrderStatus` from types.hpp. -/
inductive OrderStatus where
  | New
  | PartiallyFilled
  | Filled
  | Cancelled
  | Rejected
deriving DecidableEq, Repr

/-- `OrderId = uint64_t`. -/
abbrev OrderId := Nat

/-- `Price = double`, modelled as an exact rational. -/
abbrev Price := Rat

/-- `Quantity = int64_t`. -/
abbrev Quantity := Int

/-- `Symbol = std::string`. -/
abbrev Symbol := String

/-- `struct Order` from order.hpp. -/
structure Order where
  id : OrderId
  symbol : Symbol
  side : Side
  type : OrderType
  price : Price
  quantity : Quantity
  filled_qty : Quantity
  status : OrderStatus
  timestamp : Nat
deriving DecidableEq, Repr

/-- `Order::remaining_qty`. -/
def Order.remaining_qty (o : Order) : Quantity :=
  o.quantity - o.filled_qty

/-- `Order::is_filled`. -/
def Order.is_filled (o : Order) : Bool :=
  o.filled_qty ≥ o.quantity

/-- `Order::apply_fill`. -/
def Order.apply_fill (o : Order) (fill_qty : Quantity) : Order :=
  let f := o.filled_qty + fill_qty
  { o with
    filled_qty := f
    status :=
      if f ≥ o.quantity then OrderStatus.Filled
      else if f > 0 then OrderStatus.PartiallyFilled
      else o.status }

/-- `Order::cancel`. -/
def Order.cancel (o : Order) : Order :=
  { o with status := OrderStatus.Cancelled }

/-- `Order::reject`. -/
def Order.reject (o : Order) : Order :=
  { o with status := OrderStatus.Rejected }

/-- `struct Fill` from order.hpp (the wall-clock timestamp member is not
modelled; no claim mentions it). -/
structure Fill where
  order_id : OrderId
  counter_order_id : OrderId
  symbol : Symbol
  side : Side
  price : Price
  quantity : Quantity
deriving DecidableEq, Repr

/-- `struct PriceLevel` from order_book.hpp. -/
structure PriceLevel where
  price : Price
  total_quantity : Quantity
  orders : List Order
deriving DecidableEq, Repr

/-- The `order_lookup_` entry: `struct OrderLocation` without the list
iterator (the iterator designates the unique order with the key id inside
the level at the recorded side and price). -/
structure OrderLocation where
  side : Side
  price : Price
deriving DecidableEq, Repr

/-- `class OrderBook` state: `bids` is `bid_levels_` in descending price
order, `asks` is `ask_levels_` in ascending price order, `order_lookup`
is `order_lookup_`. -/
structure Book where
  symbol : Symbol
  bids : List PriceLevel
  asks : List PriceLevel
  order_lookup : List (OrderId × OrderLocation)
deriving DecidableEq, Repr

/-- A fresh book, as constructed by `OrderBook::OrderBook(symbol)`. -/
def Book.empty (sym : Symbol) : Book :=
  ⟨sym, [], [], []⟩

/-- `order_lookup_.find(id)` on the association list. -/
def lookupFind (l : List (OrderId × OrderLocation)) (id : OrderId) :
    Option OrderLocation :=
  match l with
  | [] => none
  | (i, loc) :: rest => if i = id then some loc else lookupFind rest id

/-- `order_lookup_.erase(id)` on the association list (keys are unique, so
removing the first hit removes the entry). -/
def lookupErase (l : List (OrderId × OrderLocation)) (id : OrderId) :
    List (OrderId × OrderLocation) :=
  match l with
  | [] => []
  | (i, loc) :: rest =>
    if i = id then rest else (i, loc) :: lookupErase rest id

/-- `OrderBook::isValidOrder`. -/
def isValidOrder (o : Order) : Bool :=
  o.remaining_qty > 0 && o.price ≥ 0

/-- The level-map access `levels[order.price]` followed by the `addOrder`
level update: locate the level keyed `o.price` (creating it at its sorted
position when absent, as `std::map::operator[]` does), push the order to
the back of its FIFO and grow its total by `o.remaining_qty`.  `lt` is the
map's key comparator: `<` for asks, `>` (`std::greater`) for bids. -/
def insertIntoLevels (lt : Price → Price → Bool) (o : Order) :
    List PriceLevel → List PriceLevel
  | [] => [⟨o.price, o.remaining_qty, [o]⟩]
  | lvl :: rest =>
    if o.price = lvl.price then
      { lvl with
        total_quantity := lvl.total_quantity + o.remaining_qty
        orders := lvl.orders ++ [o] } :: rest
    else if lt o.price lvl.price then
      ⟨o.price, o.remaining_qty, [o]⟩ :: lvl :: rest
    else
      lvl :: insertIntoLevels lt o rest

/-- Key comparator of `bid_levels_` (`std::greater<Price>`). -/
def bidLt (a b : Price) : Bool := a > b

/-- Key comparator of `ask_levels_` (`std::less<Price>`). -/
def askLt (a b : Price) : Bool := a < b

/-- `OrderBook::addOrder`.  Returns the C++ `bool` together with the book
after the call. -/
def Book.addOrder (b : Book) (o : Order) : Bool × Book :=
  if ¬ isValidOrder o then (false, b)
  else if (lookupFind b.order_lookup o.id).isSome then (false, b)
  else
    match o.side with
    | Side.Buy =>
      (true,
       { b with
         bids := insertIntoLevels bidLt o b.bids
         order_lookup := (o.id, ⟨Side.Buy, o.price⟩) :: b.order_lookup })
    | Side.Sell =>
      (true,
       { b with
         asks := insertIntoLevels askLt o b.asks
         order_lookup := (o.id, ⟨Side.Sell, o.price⟩) :: b.order_lookup })

/-- Remove the first order with the given id from a FIFO, returning it. -/
def removeOrderById (orders : List Order) (id : OrderId) :
    Option Order × List Order :=
  match orders with
  | [] => (none, [])
  | o :: rest =>
    if o.id = id then (some o, rest)
    else
      let r := removeOrderById rest id
      (r.1, o :: r.2)

/-- The level surgery of `OrderBook::cancelOrder`: at the level keyed
`price`, subtract the cancelled order's `remaining_qty` from the level
total, erase the order, and erase the level itself when that leaves it
empty.  A missing level is left alone (the C++ guards on `find`); a level
present but not holding the id would be a dangling-iterator dereference in
the C++ (undefined behaviour), modelled as a no-op. -/
def cancelInLevels (levels : List PriceLevel) (price : Price) (id : OrderId) :
    List PriceLevel :=
  match levels with
  | [] => []
  | lvl :: rest =>
    if lvl.price = price then
      match removeOrderById lvl.orders id with
      | (none, _) => lvl :: rest
      | (some o, orders') =>
        if orders'.isEmpty then rest
        else
          { lvl with
            total_quantity := lvl.total_quantity - o.remaining_qty
            orders := orders' } :: rest
    else lvl :: cancelInLevels rest price id

/-- `OrderBook::cancelOrder`. -/
def Book.cancelOrder (b : Book) (id : OrderId) : Bool × Book :=
  match lookupFind b.order_lookup id with
  | none => (false, b)
  | some loc =>
    let b' :=
      match loc.side with
      | Side.Buy => { b with bids := cancelInLevels b.bids loc.price id }
      | Side.Sell => { b with asks := cancelInLevels b.asks loc.price id }
    (true, { b' with order_lookup := lookupErase b'.order_lookup id })

/-- Locate the resting order designated by a lookup entry: the order with
the given id inside the level keyed `price` (this is the `loc.iter`
dereference; in every consistent state the id occurs exactly once there). -/
def findOrderInLevels (levels : List PriceLevel) (price : Price)
    (id : OrderId) : Option Order :=
  match levels with
  | [] => none
  | lvl :: rest =>
    if lvl.price = price then lvl.orders.find? (fun o => o.id = id)
    else findOrderInLevels rest price id

/-- Rewrite the quantity of the first order carrying the id
(`loc.iter->quantity = new_quantity`). -/
def setQuantityInOrders (orders : List Order) (id : OrderId)
    (new_quantity : Quantity) : List Order :=
  match orders with
  | [] => []
  | o :: rest =>
    if o.id = id then { o with quantity := new_quantity } :: rest
    else o :: setQuantityInOrders rest id new_quantity

/-- The in-place quantity write of `OrderBook::modifyOrder`
(`loc.iter->quantity = new_quantity` followed by
`levels[loc.price].total_quantity += diff`): rewrite the quantity of the
(unique) order with the id at the level keyed `price` and shift the level
total by `diff`. -/
def setQuantityInLevels (levels : List PriceLevel) (price : Price)
    (id : OrderId) (new_quantity diff : Quantity) : List PriceLevel :=
  match levels with
  | [] => []
  | lvl :: rest =>
    if lvl.price = price then
      { lvl with
        total_quantity := lvl.total_quantity + diff
        orders := setQuantityInOrders lvl.orders id new_quantity } :: rest
    else lvl :: setQuantityInLevels rest price id new_quantity diff

/-- `OrderBook::modifyOrder`.  `now` stands for the
`std::chrono::steady_clock::now()` timestamp taken on the re-queue path.
The C++ starts from `Order old_order = *loc.iter;`: a lookup entry whose
iterator no longer resolves would be undefined behaviour, modelled as
returning `(false, b)` (unreachable from consistent states). -/
def Book.modifyOrder (b : Book) (id : OrderId) (new_price : Price)
    (new_quantity : Quantity) (now : Nat) : Bool × Book :=
  match lookupFind b.order_lookup id with
  | none => (false, b)
  | some loc =>
    let found :=
      match loc.side with
      | Side.Buy => findOrderInLevels b.bids loc.price id
      | Side.Sell => findOrderInLevels b.asks loc.price id
    match found with
    | none => (false, b)
    | some old_order =>
      if new_price > 0 ∧ new_price ≠ loc.price then
        let b1 := (b.cancelOrder id).2
        let o1 :=
          { old_order with
            price := new_price
            quantity :=
              if new_quantity > 0 then new_quantity else old_order.quantity
            timestamp := now }
        b1.addOrder o1
      else if new_quantity > 0 ∧ new_quantity ≠ old_order.quantity then
        let diff := new_quantity - old_order.quantity
        match loc.side with
        | Side.Buy =>
          (true, { b with
            bids := setQuantityInLevels b.bids loc.price id new_quantity diff })
        | Side.Sell =>
          (true, { b with
            asks := setQuantityInLevels b.asks loc.price id new_quantity diff })
      else (true, b)

/-- `OrderBook::getOrder` (a `some` result stands for a non-null pointer). -/
def Book.getOrder (b : Book) (id : OrderId) : Option Order :=
  match lookupFind b.order_lookup id with
  | none => none
  | some loc =>
    match loc.side with
    | Side.Buy => findOrderInLevels b.bids loc.price id
    | Side.Sell => findOrderInLevels b.asks loc.price id

/-- The price gate of `OrderBook::executeFill`:
`limit_price > 0 && level.price > limit_price` on the Buy branch,
`limit_price > 0 && level.price < limit_price` on the Sell branch. -/
def gateBlocks (aggressor_side : Side) (limit_price level_price : Price) :
    Bool :=
  limit_price > 0 &&
    (match aggressor_side with
     | Side.Buy => level_price > limit_price
     | Side.Sell => level_price < limit_price)

/-- Outcome of the inner matching loop of `executeFill` on one level. -/
structure LevelFillResult where
  fills : List Fill
  remaining : Quantity
  total : Quantity
  orders : List Order
  removed : List OrderId
deriving DecidableEq, Repr

/-- The inner loop of `OrderBook::executeFill`:
`while (remaining > 0 && !level.orders.empty())`, fill the head passive
order with `min(remaining, passive.remaining_qty())` at the level price,
apply the fill to it, lower the level total and `remaining`, and pop it
(recording its id for `order_lookup_` erasure) when it is fully filled. -/
def fillOrders (aggressor_id : OrderId) (sym : Symbol)
    (aggressor_side : Side) (level_price : Price)
    (remaining total : Quantity) :
    List Order → LevelFillResult
  | [] => ⟨[], remaining, total, [], []⟩
  | passive :: rest =>
    if remaining ≤ 0 then ⟨[], remaining, total, passive :: rest, []⟩
    else
      let fill_qty := min remaining passive.remaining_qty
      let f : Fill :=
        ⟨aggressor_id, passive.id, sym, aggressor_side, level_price, fill_qty⟩
      let passive' := passive.apply_fill fill_qty
      if passive'.is_filled then
        let r := fillOrders aggressor_id sym aggressor_side level_price
          (remaining - fill_qty) (total - fill_qty) rest
        ⟨f :: r.fills, r.remaining, r.total, r.orders, passive.id :: r.removed⟩
      else
        ⟨[f], remaining - fill_qty, total - fill_qty, passive' :: rest, []⟩

/-- Outcome of the outer matching loop of `executeFill` on one side. -/
structure BookFillResult where
  fills : List Fill
  remaining : Quantity
  levels : List PriceLevel
  removed : List OrderId
deriving DecidableEq, Repr

/-- The outer loop of `OrderBook::executeFill`:
`while (remaining > 0 && !levels.empty())`, take the best (front) level,
break at the price gate, run the inner loop on it, and erase the level when
that leaves it without orders. -/
def fillLevels (aggressor_id : OrderId) (sym : Symbol)
    (aggressor_side : Side) (limit_price : Price) (remaining : Quantity) :
    List PriceLevel → BookFillResult
  | [] => ⟨[], remaining, [], []⟩
  | lvl :: rest =>
    if remaining ≤ 0 then ⟨[], remaining, lvl :: rest, []⟩
    else if gateBlocks aggressor_side limit_price lvl.price then
      ⟨[], remaining, lvl :: rest, []⟩
    else
      let r := fillOrders aggressor_id sym aggressor_side lvl.price
        remaining lvl.total_quantity lvl.orders
      if r.orders.isEmpty then
        let r2 := fillLevels aggressor_id sym aggressor_side limit_price
          r.remaining rest
        ⟨r.fills ++ r2.fills, r2.remaining, r2.levels, r.removed ++ r2.removed⟩
      else
        ⟨r.fills, r.remaining,
         { lvl with total_quantity := r.total, orders := r.orders } :: rest,
         r.removed⟩

/-- `OrderBook::executeFill`: a Buy aggressor consumes the ask side, a Sell
aggressor the bid side; ids of fully filled passive orders are erased from
`order_lookup_`. -/
def Book.executeFill (b : Book) (aggressor_side : Side)
    (quantity : Quantity) (limit_price : Price) (aggressor_id : OrderId) :
    List Fill × Book :=
  match aggressor_side with
  | Side.Buy =>
    let r := fillLevels aggressor_id b.symbol Side.Buy limit_price
      quantity b.asks
    (r.fills,
     { b with
       asks := r.levels
       order_lookup := r.removed.foldl lookupErase b.order_lookup })
  | Side.Sell =>
    let r := fillLevels aggressor_id b.symbol Side.Sell limit_price
      quantity b.bids
    (r.fills,
     { b with
       bids := r.levels
       order_lookup := r.removed.foldl lookupErase b.order_lookup })

/-- Association-list read with a default: the
`find` / `!= end ? it->second : default` pattern of the risk getters. -/
def assocGetD {α : Type} (l : List (Symbol × α)) (k : Symbol) (d : α) : α :=
  match l with
  | [] => d
  | (k', v) :: rest => if k' = k then v else assocGetD rest k d

/-- `map[key] op= v` on an association list: update the entry in place when
the key exists, append a fresh entry seeded with the map's
value-initialised default otherwise (`std::unordered_map::operator[]`). -/
def assocUpdate {α : Type} (l : List (Symbol × α)) (k : Symbol)
    (f : α → α) (d : α) : List (Symbol × α) :=
  match l with
  | [] => [(k, f d)]
  | (k', v) :: rest =>
    if k' = k then (k', f v) :: rest else (k', v) :: assocUpdate rest k f d

/-- `class RiskManager` state (risk_manager.hpp).  The reason strings of
`RiskCheckResult` are never branched on, so checks return a plain `Bool`;
the dead `average_prices_` member (declared, cleared on reset, never read
or written elsewhere) is not modelled. -/
structure RiskState where
  position_limits : List (Symbol × Quantity)
  order_size_limits : List (Symbol × Quantity)
  notional_limits : List (Symbol × Rat)
  positions : List (Symbol × Quantity)
  notional_exposures : List (Symbol × Rat)
  global_position_limit : Quantity
  global_notional_limit : Rat
  order_rate_limit : Nat
  orders_this_second : Nat
  rate_window_start : Nat
deriving DecidableEq, Repr

/-- `DEFAULT_POSITION_LIMIT`. -/
def DEFAULT_POSITION_LIMIT : Quantity := 100000

/-- `DEFAULT_ORDER_SIZE_LIMIT`. -/
def DEFAULT_ORDER_SIZE_LIMIT : Quantity := 10000

/-- `DEFAULT_NOTIONAL_LIMIT`. -/
def DEFAULT_NOTIONAL_LIMIT : Rat := 10000000

/-- A fresh risk manager (`RiskManager::RiskManager`), with the rate
window opened at construction time `t0`. -/
def RiskState.init (t0 : Nat) : RiskState :=
  ⟨[], [], [], [], [], 0, 0, 0, 0, t0⟩

/-- `RiskManager::getPosition`. -/
def RiskState.getPosition (s : RiskState) (sym : Symbol) : Quantity :=
  assocGetD s.positions sym 0

/-- `RiskManager::getPositionLimit`. -/
def RiskState.getPositionLimit (s : RiskState) (sym : Symbol) : Quantity :=
  assocGetD s.position_limits sym DEFAULT_POSITION_LIMIT

/-- `RiskManager::getOrderSizeLimit`. -/
def RiskState.getOrderSizeLimit (s : RiskState) (sym : Symbol) : Quantity :=
  assocGetD s.order_size_limits sym DEFAULT_ORDER_SIZE_LIMIT

/-- `RiskManager::getNotionalLimit`. -/
def RiskState.getNotionalLimit (s : RiskState) (sym : Symbol) : Rat :=
  assocGetD s.notional_limits sym DEFAULT_NOTIONAL_LIMIT

/-- `RiskManager::getNotionalExposure`. -/
def RiskState.getNotionalExposure (s : RiskState) (sym : Symbol) : Rat :=
  assocGetD s.notional_exposures sym 0

/-- `RiskManager::getTotalNotionalExposure`. -/
def RiskState.getTotalNotionalExposure (s : RiskState) : Rat :=
  s.notional_exposures.foldl (fun acc p => acc + |p.2|) 0

/-- `RiskManager::updatePosition` (the risk gate's `applyFill`). -/
def RiskState.updatePosition (s : RiskState) (sym : Symbol) (side : Side)
    (quantity : Quantity) (price : Price) : RiskState :=
  let direction : Quantity := match side with | Side.Buy => 1 | Side.Sell => -1
  let position_change := direction * quantity
  let s1 := { s with
    positions := assocUpdate s.positions sym (· + position_change) 0 }
  let notional : Rat := price * (quantity : Rat)
  if direction > 0 then
    { s1 with notional_exposures :=
        assocUpdate s1.notional_exposures sym (· + notional) 0 }
  else
    { s1 with notional_exposures :=
        assocUpdate s1.notional_exposures sym (· - notional) 0 }

/-- `RiskManager::checkPositionLimit` (`true` = passed). -/
def RiskState.checkPositionLimit (s : RiskState) (o : Order) : Bool :=
  let current_pos := s.getPosition o.symbol
  let limit := s.getPositionLimit o.symbol
  let direction : Quantity := match o.side with | Side.Buy => 1 | Side.Sell => -1
  let new_pos := current_pos + direction * o.quantity
  if |new_pos| > limit then false
  else if s.global_position_limit > 0 then
    let total_pos := s.positions.foldl
      (fun acc p => if p.1 = o.symbol then acc + |new_pos| else acc + |p.2|) 0
    ¬ (total_pos > s.global_position_limit)
  else true

/-- `RiskManager::checkOrderSizeLimit` (`true` = passed). -/
def RiskState.checkOrderSizeLimit (s : RiskState) (o : Order) : Bool :=
  ¬ (o.quantity > s.getOrderSizeLimit o.symbol)

/-- `RiskManager::checkNotionalLimit` (`true` = passed). -/
def RiskState.checkNotionalLimit (s : RiskState) (o : Order) : Bool :=
  let limit := s.getNotionalLimit o.symbol
  let current := s.getNotionalExposure o.symbol
  let order_notional : Rat := o.price * (o.quantity : Rat)
  let direction : Rat := match o.side with | Side.Buy => 1 | Side.Sell => -1
  let new_exposure := current + direction * order_notional
  if |new_exposure| > limit then false
  else if s.global_notional_limit > 0 then
    let total_exposure := s.notional_exposures.foldl
      (fun acc p =>
        if p.1 = o.symbol then acc + |new_exposure| else acc + |p.2|) 0
    ¬ (total_exposure > s.global_notional_limit)
  else true

/-- `RiskManager::checkOrderRate` (`now` is the clock read; the clock is
monotone, so `now ≥ rate_window_start` and the truncated `Nat` subtraction
equals the C++ signed seconds difference). -/
def RiskState.checkOrderRate (s : RiskState) (now : Nat) : Bool × RiskState :=
  if s.order_rate_limit = 0 then (true, s)
  else
    let s1 :=
      if now - s.rate_window_start ≥ 1 then
        { s with orders_this_second := 0, rate_window_start := now }
      else s
    if s1.orders_this_second ≥ s1.order_rate_limit then (false, s1)
    else (true, { s1 with orders_this_second := s1.orders_this_second + 1 })

/-- `RiskManager::checkOrder`: rate, order size, position, notional, in
that order, short-circuiting on the first failure. -/
def RiskState.checkOrder (s : RiskState) (o : Order) (now : Nat) :
    Bool × RiskState :=
  let rate := s.checkOrderRate now
  let s1 := rate.2
  if ¬ rate.1 then (false, s1)
  else if ¬ s1.checkOrderSizeLimit o then (false, s1)
  else if ¬ s1.checkPositionLimit o then (false, s1)
  else if ¬ s1.checkNotionalLimit o then (false, s1)
  else (true, s1)

/-- `class MatchingEngine` state: the `symbol → OrderBook` map, the
optional risk manager, and the two counters.  The fill / order-status
callbacks are surjections of the returned data (invoked synchronously with
exactly the fills returned and the final order), so they carry no extra
state to model. -/
structure EngineState where
  order_books : List (Symbol × Book)
  risk : Option RiskState
  total_orders : Nat
  total_fills : Nat
deriving DecidableEq, Repr

/-- A fresh engine (`MatchingEngine::MatchingEngine`). -/
def EngineState.init : EngineState := ⟨[], none, 0, 0⟩

/-- `MatchingEngine::getOrCreateOrderBook`, read half: the book the
reference points at (fresh when the symbol is new). -/
def getOrCreateBook (books : List (Symbol × Book)) (sym : Symbol) : Book :=
  match books with
  | [] => Book.empty sym
  | (k, b) :: rest => if k = sym then b else getOrCreateBook rest sym

/-- Store a (possibly fresh) book back under its symbol; together with
`getOrCreateBook` this models mutating the book through the reference
`getOrCreateOrderBook` returned. -/
def setBook (books : List (Symbol × Book)) (sym : Symbol) (b : Book) :
    List (Symbol × Book) :=
  match books with
  | [] => [(sym, b)]
  | (k, b') :: rest =>
    if k = sym then (k, b) :: rest else (k, b') :: setBook rest sym b

/-- The market-order sentinel substitution of `MatchingEngine::matchOrder`:
`limit_price = (side == Buy) ? 1e12 : 0.0` for Market orders, the order's
own price otherwise.  `1e12` is exactly representable as a double. -/
def effectiveLimit (o : Order) : Price :=
  if o.type = OrderType.Market then
    match o.side with
    | Side.Buy => (1000000000000 : Rat)
    | Side.Sell => 0
  else o.price

/-- `MatchingEngine::matchOrder`: run `executeFill` with the effective
limit, apply each returned fill to the aggressor order, then apply the
residue policy (Limit rests the residual via `addOrder`, every other type
cancels it).  Returns the fills, the aggressor order as it stands after
the call (the object `notifyOrder` receives), and the mutated book. -/
def matchOrder (b : Book) (o : Order) : List Fill × Order × Book :=
  let limit_price := effectiveLimit o
  let step :=
    if o.remaining_qty > 0 then
      b.executeFill o.side o.remaining_qty limit_price o.id
    else ([], b)
  let fills := step.1
  let o1 := fills.foldl (fun acc f => acc.apply_fill f.quantity) o
  if o1.remaining_qty > 0 then
    match o.type with
    | OrderType.Limit =>
      (fills, o1, (step.2.addOrder o1).2)
    | OrderType.Market => (fills, o1.cancel, step.2)
    | OrderType.IOC => (fills, o1.cancel, step.2)
    | OrderType.FOK => (fills, o1.cancel, step.2)
  else (fills, o1, step.2)

/-- What one `submitOrder` call produces: the returned fills, the order as
delivered to the final `notifyOrder` callback, and the engine afterwards. -/
structure SubmitResult where
  fills : List Fill
  order : Order
  engine : EngineState
deriving DecidableEq, Repr

/-- `MatchingEngine::submitOrder` (`now` is the clock read the risk
manager's rate check would perform): bump `total_orders_`; if a risk
manager is configured, run `checkOrder` and on rejection notify the order
as `Rejected` with no fills; otherwise match against the (possibly
fresh) book for the symbol, count the fills into `total_fills_`, and
replay every fill into `RiskManager::updatePosition`. -/
def EngineState.submitOrder (e : EngineState) (o : Order) (now : Nat) :
    SubmitResult :=
  let e1 := { e with total_orders := e.total_orders + 1 }
  let gate :=
    match e1.risk with
    | some rs =>
      let c := rs.checkOrder o now
      (c.1, { e1 with risk := some c.2 })
    | none => (true, e1)
  if ¬ gate.1 then ⟨[], o.reject, gate.2⟩
  else
    let e2 := gate.2
    let book := getOrCreateBook e2.order_books o.symbol
    let m := matchOrder book o
    let fills := m.1
    let risk' :=
      match e2.risk with
      | some rs =>
        some (fills.foldl
          (fun acc f => acc.updatePosition f.symbol f.side f.quantity f.price)
          rs)
      | none => none
    ⟨fills, m.2.1,
     { e2 with
       order_books := setBook e2.order_books o.symbol m.2.2
       risk := risk'
       total_fills := e2.total_fills + fills.length }⟩

/-! ## Statement vocabulary shared by the claims -/

/-- The level keyed `p` on a side (`levels.find(p)` of the `std::map`). -/
def levelAt (levels : List PriceLevel) (p : Price) : Option PriceLevel :=
  levels.find? (fun lvl => lvl.price = p)

/-- The levels of one side of a book. -/
def Book.sideLevels (b : Book) : Side → List PriceLevel
  | Side.Buy => b.bids
  | Side.Sell => b.asks

/-- Sum of `remaining_qty` over a FIFO of orders. -/
def sumRemaining (orders : List Order) : Quantity :=
  (orders.map Order.remaining_qty).sum

/-- The per-level invariant of the spec:
`total_quantity = Σ remaining` and the level is non-empty. -/
def levelOk (lvl : PriceLevel) : Bool :=
  lvl.total_quantity = sumRemaining lvl.orders && !lvl.orders.isEmpty

/-- Both sides of the book satisfy the per-level invariant. -/
def Book.levelsOk (b : Book) : Bool :=
  b.bids.all levelOk && b.asks.all levelOk

/-- Order constructor mirroring `Order(id, symbol, side, type, price,
quantity)`: `filled_qty = 0`, `status = New`. -/
def mkOrder (id : OrderId) (sym : Symbol) (side : Side) (ty : OrderType)
    (price : Price) (quantity : Quantity) : Order :=
  ⟨id, sym, side, ty, price, quantity, 0, OrderStatus.New, 0⟩

/-! ## Small association-list lemmas shared by the risk claims -/

theorem foldl_if_key {α β : Type} [AddCommMonoid β] (own : Symbol) (A : β)
    (f : Symbol × α → β) :
    ∀ (l : List (Symbol × α)) (a : β),
      l.foldl (fun acc p => if p.1 = own then acc + A else acc + f p) a =
        a + (l.map (fun p => if p.1 = own then A else f p)).sum := by
  intro l
  induction l with
  | nil => intro a; simp
  | cons hd tl ih =>
    intro a
    by_cases h : hd.1 = own <;> simp [h, ih, add_assoc]

theorem sum_if_key_not_mem {α β : Type} [AddCommMonoid β] (own : Symbol)
    (A : β) (f : Symbol × α → β) (l : List (Symbol × α))
    (h : own ∉ l.map Prod.fst) :
    (l.map (fun p => if p.1 = own then A else f p)).sum = (l.map f).sum := by
  induction l with
  | nil => simp
  | cons hd tl ih =>
    simp only [List.map_cons, List.mem_cons, not_or] at h
    have hne : hd.1 ≠ own := fun hh => h.1 hh.symm
    simp [hne, ih h.2]

theorem filter_ne_key_of_not_mem {α : Type} (own : Symbol)
    (l : List (Symbol × α)) (h : own ∉ l.map Prod.fst) :
    l.filter (fun p => p.1 ≠ own) = l := by
  rw [List.filter_eq_self]
  intro p hp
  have : p.1 ≠ own := fun he => h (he ▸ List.mem_map_of_mem Prod.fst hp)
  simpa using this

theorem sum_if_key_mem_nodup {α β : Type} [AddCommMonoid β] (own : Symbol)
    (A : β) (f : Symbol × α → β) (l : List (Symbol × α))
    (hnd : (l.map Prod.fst).Nodup) (hmem : own ∈ l.map Prod.fst) :
    (l.map (fun p => if p.1 = own then A else f p)).sum =
      A + ((l.filter (fun p => p.1 ≠ own)).map f).sum := by
  induction l with
  | nil => simp at hmem
  | cons hd tl ih =>
    simp only [List.map_cons, List.nodup_cons] at hnd
    by_cases h : hd.1 = own
    · have hni : own ∉ tl.map Prod.fst := h ▸ hnd.1
      rw [List.map_cons, if_pos h, List.sum_cons,
        sum_if_key_not_mem own A f tl hni]
      have hf : tl.filter (fun p => p.1 ≠ own) = tl :=
        filter_ne_key_of_not_mem own tl hni
      simp only [List.filter_cons, h, ne_eq, not_true_eq_false, decide_False,
        if_false, hf]
      simp
    · simp only [List.map_cons, List.mem_cons] at hmem
      rcases hmem with hmem | hmem
      · exact absurd hmem.symm h
      · rw [List.map_cons, if_neg h, List.sum_cons, ih hnd.2 hmem,
          List.filter_cons]
        simp only [h, ne_eq, not_false_iff, decide_True, if_true,
          decide_not, decide_False]
        rw [List.map_cons, List.sum_cons, add_left_comm]

theorem sum_eq_getD_add_filter {α β : Type} [AddCommMonoid β] (own : Symbol)
    (f : Symbol × α → β) (d : α) (l : List (Symbol × α))
    (hnd : (l.map Prod.fst).Nodup) (hmem : own ∈ l.map Prod.fst) :
    (l.map f).sum =
      f (own, assocGetD l own d) +
        ((l.filter (fun p => p.1 ≠ own)).map f).sum := by
  induction l with
  | nil => simp at hmem
  | cons hd tl ih =>
    simp only [List.map_cons, List.nodup_cons] at hnd
    by_cases h : hd.1 = own
    · have hni : own ∉ tl.map Prod.fst := h ▸ hnd.1
      have hgd : assocGetD (hd :: tl) own d = hd.2 := by
        simp [assocGetD, h]
      have hfhd : f (own, assocGetD (hd :: tl) own d) = f hd := by
        rw [hgd]; cases hd; simp_all
      have hf : tl.filter (fun p => p.1 ≠ own) = tl :=
        filter_ne_key_of_not_mem own tl hni
      rw [List.map_cons, List.sum_cons, hfhd]
      simp only [List.filter_cons, h, ne_eq, not_true_eq_false, decide_False,
        if_false, hf]
      simp
    · simp only [List.map_cons, List.mem_cons] at hmem
      rcases hmem with hmem | hmem
      · exact absurd hmem.symm h
      · have hgd : assocGetD (hd :: tl) own d = assocGetD tl own d := by
          simp [assocGetD, h]
        rw [List.map_cons, List.sum_cons, hgd, ih hnd.2 hmem,
          List.filter_cons]
        simp only [h, ne_eq, not_false_iff, decide_True, if_true,
          decide_not, decide_False]
        rw [List.map_cons, List.sum_cons, add_left_comm]

/-! ## C3: modify with `new_quantity < filled` -/

/-- A book holding one resting buy order id 1 for 10 at 150 that has been
filled for 6 by a sell aggressor, leaving `filled_qty = 6`,
`remaining = 4`. -/
def c3Book : Book :=
  ((((Book.empty "AAPL").addOrder
      (mkOrder 1 "AAPL" Side.Buy OrderType.Limit 150 10)).2).executeFill
    Side.Sell 6 150 99).2

/-- C3: the claim says `modifyOrder(id, new_price, new_quantity)` with
`0 < new_quantity < filled` returns false and leaves the book unchanged.
The code instead returns true and applies the shrink: on an order with
`quantity = 10`, `filled_qty = 6`, `modifyOrder(1, 0, 5)` reports success,
rewrites the quantity to 5 (driving `remaining_qty` to −1) and drops the
level total to −1.  The spec itself flags this as a divergence it requires
fixing, so the code, not the claim, is wrong. -/
theorem modify_below_filled_is_applied :
    (c3Book.modifyOrder 1 0 5 0).1 = true ∧
    ((c3Book.modifyOrder 1 0 5 0).2.getOrder 1).map Order.remaining_qty =
      some (-1) ∧
    (levelAt (c3Book.modifyOrder 1 0 5 0).2.bids 150).map
      PriceLevel.total_quantity = some (-1) ∧
    (c3Book.modifyOrder 1 0 5 0).2 ≠ c3Book := by
  decide

/-! ## C5: the Market-order price sentinel -/

/-- A book with one resting ask priced `2 · 10^12` — a representable
double, above the Buy sentinel `1e12`. -/
def c5Book : Book :=
  ((Book.empty "AAPL").addOrder
    (mkOrder 1 "AAPL" Side.Sell OrderType.Limit 2000000000000 100)).2

/-- An engine holding `c5Book`, no risk manager. -/
def c5Engine : EngineState := ⟨[("AAPL", c5Book)], none, 0, 0⟩

/-- A Market buy for 10 (price field 0, as Market orders carry). -/
def c5Market : Order := mkOrder 2 "AAPL" Side.Buy OrderType.Market 0 10

/-- C5 counterexample: the claim says a Market Buy matches against asks at
any price whatsoever because the Buy sentinel exceeds every representable
book price.  But the sentinel is the finite `1e12`: against a book whose
only ask rests at `2 · 10^12` with 100 on offer, a Market buy for 10
returns no fills — the gate stops it. -/
theorem market_buy_sentinel_not_unbounded :
    (c5Engine.submitOrder c5Market 0).fills = [] ∧
    c5Book.asks ≠ [] := by
  decide

/-- C5 amended: a Market Sell bypasses the price gate outright (its
sentinel 0 makes `limit_price > 0` false, so no bid price is ever gated),
while a Market Buy is gated exactly at levels priced above its finite
sentinel `1e12 = 10^12`: asks at or below `10^12` match, asks above it do
not. -/
theorem market_sentinel_gate_characterization :
    (∀ (o : Order) (p : Price), o.type = OrderType.Market →
      o.side = Side.Sell → gateBlocks o.side (effectiveLimit o) p = false) ∧
    (∀ (o : Order) (p : Price), o.type = OrderType.Market →
      o.side = Side.Buy →
      (gateBlocks o.side (effectiveLimit o) p = true ↔
        p > (1000000000000 : Rat))) := by
  constructor
  · intro o p hty hside
    simp [gateBlocks, effectiveLimit, hty, hside]
  · intro o p hty hside
    simp [gateBlocks, effectiveLimit, hty, hside]

/-- Closed instance of `market_sentinel_gate_characterization`: the Market
sell for 10 is never gated against a bid at 3, and the Market buy sentinel
gates an ask at `2 · 10^12`. -/
theorem market_sentinel_gate_characterization_witness :
    gateBlocks Side.Sell
      (effectiveLimit (mkOrder 4 "AAPL" Side.Sell OrderType.Market 0 10)) 3 =
        false ∧
    gateBlocks Side.Buy
      (effectiveLimit (mkOrder 5 "AAPL" Side.Buy OrderType.Market 0 10))
      2000000000000 = true := by
  constructor
  · exact market_sentinel_gate_characterization.1
      (mkOrder 4 "AAPL" Side.Sell OrderType.Market 0 10) 3 rfl rfl
  · exact (market_sentinel_gate_characterization.2
      (mkOrder 5 "AAPL" Side.Buy OrderType.Market 0 10) 2000000000000 rfl
        rfl).mpr (by norm_num)

/-! ## C4: submitOrder on invalid parameters -/

/-- A book with one valid resting ask: id 1, 100 at 150. -/
def c4Book : Book :=
  ((Book.empty "AAPL").addOrder
    (mkOrder 1 "AAPL" Side.Sell OrderType.Limit 150 100)).2

/-- An engine holding `c4Book`, no risk manager. -/
def c4Engine : EngineState := ⟨[("AAPL", c4Book)], none, 0, 0⟩

/-- An invalid order: negative price. -/
def c4Bad : Order := mkOrder 2 "AAPL" Side.Buy OrderType.Limit (-1) 10

/-- C4 counterexample: the claim says an invalid submission (here: a Limit
buy at price −1) returns an empty fill list with status `Rejected`.  The
code performs no validation in `submitOrder`: the negative limit even
disables the price gate, so against a resting ask at 150 the invalid order
produces a fill, and its notified status is `Filled`, never `Rejected`. -/
theorem submit_invalid_order_not_rejected :
    (c4Engine.submitOrder c4Bad 0).fills ≠ [] ∧
    (c4Engine.submitOrder c4Bad 0).order.status ≠ OrderStatus.Rejected := by
  decide

/-- C4 amended: `submitOrder` performs no parameter validation.  With no
risk gate, an order with zero or negative quantity comes back with an
empty fill list and its status untouched (`New` for a fresh order — not
`Rejected`), and no failure is signalled; a negative-price order is not
rejected either and can even match (see the counterexample). -/
theorem submit_nonpositive_quantity_behavior (e : EngineState) (o : Order)
    (now : Nat) (hrisk : e.risk = none) (hq : o.quantity ≤ 0)
    (hf : o.filled_qty = 0) :
    (e.submitOrder o now).fills = [] ∧
    (e.submitOrder o now).order.status = o.status := by
  have hrem : ¬ o.remaining_qty > 0 := by
    simp only [Order.remaining_qty, hf, sub_zero, not_lt]
    exact hq
  simp [EngineState.submitOrder, matchOrder, hrisk, hrem]

/-- Closed instance of `submit_nonpositive_quantity_behavior`: a
zero-quantity buy through a fresh engine yields no fills and stays `New`. -/
theorem submit_nonpositive_quantity_behavior_witness :
    (EngineState.init.submitOrder
      (mkOrder 7 "AAPL" Side.Buy OrderType.Limit 150 0) 0).fills = [] ∧
    (EngineState.init.submitOrder
      (mkOrder 7 "AAPL" Side.Buy OrderType.Limit 150 0) 0).order.status =
      OrderStatus.New := by
  have h := submit_nonpositive_quantity_behavior EngineState.init
    (mkOrder 7 "AAPL" Side.Buy OrderType.Limit 150 0) 0 rfl (by decide) rfl
  exact ⟨h.1, h.2⟩

/-! ## C2: the global position limit check -/

theorem foldl_add_map {α β : Type} [AddCommMonoid β] (f : α → β) :
    ∀ (l : List α) (a : β),
      l.foldl (fun acc p => acc + f p) a = a + (l.map f).sum := by
  intro l
  induction l with
  | nil => intro a; simp
  | cons hd tl ih => intro a; simp [ih, add_assoc]

/-- The hypothetical position of the spec: `current + sign(side)·quantity`
for the order's own symbol. -/
def hypotheticalPosition (s : RiskState) (o : Order) : Quantity :=
  s.getPosition o.symbol +
    (match o.side with | Side.Buy => 1 | Side.Sell => -1) * o.quantity

/-- The global sum the claim describes: `|new_pos|` for the order's own
symbol — included unconditionally — plus `|position|` for every other
recorded symbol. -/
def claimGlobalPositionSum (s : RiskState) (o : Order) : Quantity :=
  |hypotheticalPosition s o| +
    ((s.positions.filter (fun p => p.1 ≠ o.symbol)).map
      (fun p => |p.2|)).sum

/-- C2 counterexample: with no recorded positions, a global position limit
of 1, and a buy of 5 (per-symbol limit at its 100000 default), the claim's
sum is `|new_pos| = 5 > 1`, so the claim demands rejection — but the code
folds only over the `positions_` map, which is empty, computes 0 and
accepts.  The order's own hypothetical position is dropped whenever its
symbol has no recorded entry. -/
theorem global_position_check_skips_unrecorded_symbol :
    ({ RiskState.init 0 with
        global_position_limit := 1 } : RiskState).global_position_limit
      > 0 ∧
    claimGlobalPositionSum { RiskState.init 0 with global_position_limit := 1 }
      (mkOrder 1 "AAPL" Side.Buy OrderType.Limit 10 5) >
      ({ RiskState.init 0 with
          global_position_limit := 1 } : RiskState).global_position_limit ∧
    RiskState.checkPositionLimit
      { RiskState.init 0 with global_position_limit := 1 }
      (mkOrder 1 "AAPL" Side.Buy OrderType.Limit 10 5) = true := by
  decide

/-- C2 amended: when a global position limit > 0 is set and the per-symbol
check passes, the gate sums only over symbols recorded in the positions
map — substituting `|new_pos|` for the order's symbol when (and only when)
that symbol has an entry.  A symbol with no recorded position contributes
nothing: the check then compares just the other symbols' `Σ|position|`
against the global limit, so the order's own `|new_pos|` is not always
included. -/
theorem global_position_check_characterization (s : RiskState) (o : Order)
    (hglob : s.global_position_limit > 0)
    (hper : |hypotheticalPosition s o| ≤ s.getPositionLimit o.symbol) :
    (o.symbol ∉ s.positions.map Prod.fst →
      (s.checkPositionLimit o = true ↔
        (s.positions.map (fun p => |p.2|)).sum ≤ s.global_position_limit)) ∧
    ((s.positions.map Prod.fst).Nodup → o.symbol ∈ s.positions.map Prod.fst →
      (s.checkPositionLimit o = true ↔
        claimGlobalPositionSum s o ≤ s.global_position_limit)) := by
  have hnp : ¬ |hypotheticalPosition s o| > s.getPositionLimit o.symbol :=
    not_lt.mpr hper
  have hfold := foldl_if_key o.symbol |hypotheticalPosition s o|
    (fun p => |p.2|) s.positions 0
  constructor
  · intro hnm
    simp only [RiskState.checkPositionLimit, hypotheticalPosition] at hnp ⊢
    rw [if_neg hnp, if_pos hglob]
    rw [hypotheticalPosition] at hfold
    rw [hfold, zero_add, sum_if_key_not_mem _ _ _ _ hnm]
    simp [not_lt]
  · intro hnd hmem
    simp only [RiskState.checkPositionLimit, hypotheticalPosition] at hnp ⊢
    rw [if_neg hnp, if_pos hglob]
    rw [hypotheticalPosition] at hfold
    rw [hfold, zero_add, sum_if_key_mem_nodup _ _ _ _ hnd hmem]
    simp only [claimGlobalPositionSum, hypotheticalPosition,
      decide_eq_true_iff, not_lt]

/-- Closed instance of `global_position_check_characterization`: with only
"MSFT" holding 3 and a global limit of 10, a buy of 2 in "AAPL" (absent
from the map) passes the gate exactly because `3 ≤ 10` — its own
hypothetical position of 2 plays no part. -/
theorem global_position_check_characterization_witness :
    RiskState.checkPositionLimit
      { RiskState.init 0 with
          positions := [("MSFT", 3)], global_position_limit := 10 }
      (mkOrder 1 "AAPL" Side.Buy OrderType.Limit 10 2) = true := by
  have h := (global_position_check_characterization
    { RiskState.init 0 with
        positions := [("MSFT", 3)], global_position_limit := 10 }
    (mkOrder 1 "AAPL" Side.Buy OrderType.Limit 10 2)
    (by decide) (by decide)).1 (by decide)
  exact h.mpr (by decide)

/-! ## C10: Market orders and the notional check -/

/-- C10: a Market order carries price 0, so the hypothetical notional the
check computes is `0 · quantity = 0` and the new exposure equals the
current one; whenever the current exposure already sits within the
per-symbol limit and (if a global notional limit is set) the summed
absolute exposures sit within the global one, the check accepts — for any
quantity. -/
theorem market_order_passes_notional_check (s : RiskState) (o : Order)
    (hprice : o.price = 0)
    (hnd : (s.notional_exposures.map Prod.fst).Nodup)
    (hper : |s.getNotionalExposure o.symbol| ≤ s.getNotionalLimit o.symbol)
    (hglob : s.global_notional_limit > 0 →
      s.getTotalNotionalExposure ≤ s.global_notional_limit) :
    s.checkNotionalLimit o = true := by
  have hzero : o.price * (o.quantity : Rat) = 0 := by rw [hprice]; ring
  have hnew :
      s.getNotionalExposure o.symbol +
        (match o.side with | Side.Buy => (1 : Rat) | Side.Sell => -1) *
          (o.price * (o.quantity : Rat)) =
      s.getNotionalExposure o.symbol := by
    rw [hzero]; ring_nf
  simp only [RiskState.checkNotionalLimit, hnew]
  rw [if_neg (not_lt.mpr hper)]
  by_cases hg : s.global_notional_limit > 0
  · rw [if_pos hg]
    have hfold := foldl_if_key o.symbol |s.getNotionalExposure o.symbol|
      (fun p => |p.2|) s.notional_exposures 0
    rw [hfold, zero_add]
    have htot : s.getTotalNotionalExposure =
        (s.notional_exposures.map (fun p => |p.2|)).sum := by
      simpa [RiskState.getTotalNotionalExposure] using
        foldl_add_map (fun p : Symbol × Rat => |p.2|) s.notional_exposures 0
    by_cases hmem : o.symbol ∈ s.notional_exposures.map Prod.fst
    · rw [sum_if_key_mem_nodup _ _ _ _ hnd hmem]
      have hsplit := sum_eq_getD_add_filter o.symbol
        (fun p : Symbol × Rat => |p.2|) 0 s.notional_exposures hnd hmem
      have hcur : s.getNotionalExposure o.symbol =
          assocGetD s.notional_exposures o.symbol 0 := rfl
      simp only [decide_eq_true_iff, not_lt]
      calc |s.getNotionalExposure o.symbol| +
            ((s.notional_exposures.filter
              (fun p => p.1 ≠ o.symbol)).map (fun p => |p.2|)).sum
          = (s.notional_exposures.map (fun p => |p.2|)).sum := by
            rw [hsplit, hcur]
        _ ≤ s.global_notional_limit := by rw [← htot]; exact hglob hg
    · rw [sum_if_key_not_mem _ _ _ _ hmem]
      simp only [decide_eq_true_iff, not_lt]
      rw [← htot]
      exact hglob hg
  · rw [if_neg hg]

/-- Closed instance of `market_order_passes_notional_check`: with "AAPL"
exposure 100 against its default limit of 10^7 and no global limit, a
Market sell of a million shares at price 0 passes the notional check. -/
theorem market_order_passes_notional_check_witness :
    RiskState.checkNotionalLimit
      { RiskState.init 0 with notional_exposures := [("AAPL", 100)] }
      (mkOrder 9 "AAPL" Side.Sell OrderType.Market 0 1000000) = true :=
  market_order_passes_notional_check
    { RiskState.init 0 with notional_exposures := [("AAPL", 100)] }
    (mkOrder 9 "AAPL" Side.Sell OrderType.Market 0 1000000)
    rfl (by decide) (by decide) (by intro h; exact absurd h (by decide))

/-! ## C8: a risk-rejected submission mutates nothing but the counters -/

theorem checkOrder_preserves_accounting (s : RiskState) (o : Order)
    (now : Nat) :
    (s.checkOrder o now).2.positions = s.positions ∧
    (s.checkOrder o now).2.notional_exposures = s.notional_exposures := by
  have hrate : (s.checkOrderRate now).2.positions = s.positions ∧
      (s.checkOrderRate now).2.notional_exposures = s.notional_exposures := by
    unfold RiskState.checkOrderRate
    split_ifs <;> simp_all <;> (try split) <;> simp_all
  unfold RiskState.checkOrder
  dsimp only
  split_ifs <;> exact hrate

/-- C8: when the configured risk gate rejects, `submitOrder` returns no
fills, notifies the order as `Rejected`, leaves every order book alone,
leaves positions and notional exposures alone (only the rate-window fields
of the risk state may move), increments `total_orders` and leaves
`total_fills` alone. -/
theorem risk_rejection_no_mutation (e : EngineState) (rs : RiskState)
    (o : Order) (now : Nat) (hrisk : e.risk = some rs)
    (hrej : (rs.checkOrder o now).1 = false) :
    (e.submitOrder o now).fills = [] ∧
    (e.submitOrder o now).order.status = OrderStatus.Rejected ∧
    (e.submitOrder o now).engine.order_books = e.order_books ∧
    (e.submitOrder o now).engine.risk = some (rs.checkOrder o now).2 ∧
    (rs.checkOrder o now).2.positions = rs.positions ∧
    (rs.checkOrder o now).2.notional_exposures = rs.notional_exposures ∧
    (e.submitOrder o now).engine.total_orders = e.total_orders + 1 ∧
    (e.submitOrder o now).engine.total_fills = e.total_fills := by
  have hacc := checkOrder_preserves_accounting rs o now
  refine ⟨?_, ?_, ?_, ?_, hacc.1, hacc.2, ?_, ?_⟩ <;>
    simp [EngineState.submitOrder, hrisk, hrej, Order.reject]

/-- Closed instance of `risk_rejection_no_mutation`: an engine whose risk
manager caps "AAPL" orders at size 10 rejects a buy of 200, returning no
fills, status `Rejected`, books and accounting untouched. -/
theorem risk_rejection_no_mutation_witness :
    (({ EngineState.init with
        risk := some { RiskState.init 0 with
          order_size_limits := [("AAPL", 10)] } } : EngineState).submitOrder
      (mkOrder 3 "AAPL" Side.Buy OrderType.Limit 150 200) 0).fills = [] ∧
    (({ EngineState.init with
        risk := some { RiskState.init 0 with
          order_size_limits := [("AAPL", 10)] } } : EngineState).submitOrder
      (mkOrder 3 "AAPL" Side.Buy OrderType.Limit 150 200) 0).order.status =
      OrderStatus.Rejected := by
  have h := risk_rejection_no_mutation
    { EngineState.init with
      risk := some { RiskState.init 0 with
        order_size_limits := [("AAPL", 10)] } }
    { RiskState.init 0 with order_size_limits := [("AAPL", 10)] }
    (mkOrder 3 "AAPL" Side.Buy OrderType.Limit 150 200) 0 rfl (by decide)
  exact ⟨h.1, h.2.1⟩

/-! ## C7: addOrder preconditions and effect -/

/-- The side a given side's aggressors consume, and the side `addOrder`
leaves untouched. -/
def otherSide : Side → Side
  | Side.Buy => Side.Sell
  | Side.Sell => Side.Buy

/-- A side's level list sorted strictly by its map comparator (true of the
`std::map`-backed sides in every reachable book). -/
def sortedLevels (lt : Price → Price → Bool) (levels : List PriceLevel) :
    Prop :=
  List.Pairwise (fun a b => lt a.price b.price = true) levels

theorem find?_cons_false {α : Type} (p : α → Bool) (a : α) (l : List α)
    (h : p a = false) : List.find? p (a :: l) = List.find? p l := by
  simp [List.find?, h]

theorem find?_cons_true {α : Type} (p : α → Bool) (a : α) (l : List α)
    (h : p a = true) : List.find? p (a :: l) = some a := by
  simp [List.find?, h]

theorem levelAt_insert_self (lt : Price → Price → Bool)
    (hne : ∀ a b : Price, lt a b = true → a ≠ b)
    (htrans : ∀ a b c : Price,
      lt a b = true → lt b c = true → lt a c = true) (o : Order) :
    ∀ levels : List PriceLevel, sortedLevels lt levels →
      levelAt (insertIntoLevels lt o levels) o.price =
        some (match levelAt levels o.price with
          | none => ⟨o.price, o.remaining_qty, [o]⟩
          | some lvl =>
            ⟨lvl.price, lvl.total_quantity + o.remaining_qty,
              lvl.orders ++ [o]⟩) := by
  intro levels
  induction levels with
  | nil => intro _; simp [insertIntoLevels, levelAt]
  | cons lvl rest ih =>
    intro hs
    rw [sortedLevels, List.pairwise_cons] at hs
    by_cases heq : o.price = lvl.price
    · simp [insertIntoLevels, heq, levelAt]
    · have hskip :
          (fun l : PriceLevel => decide (l.price = o.price)) lvl = false := by
        simp only [decide_eq_false_iff_not]
        exact fun h => heq h.symm
      by_cases hlt : lt o.price lvl.price = true
      · have hnone : levelAt (lvl :: rest) o.price = none := by
          rw [levelAt, List.find?_eq_none]
          intro x hx
          simp only [List.mem_cons] at hx
          rcases hx with rfl | hx
          · simpa using fun h => heq h.symm
          · have hlx := hs.1 x hx
            have : o.price ≠ x.price := hne _ _ (htrans _ _ _ hlt hlx)
            simpa using fun h => this h.symm
        rw [hnone]
        have hstep : insertIntoLevels lt o (lvl :: rest) =
            ⟨o.price, o.remaining_qty, [o]⟩ :: lvl :: rest := by
          simp [insertIntoLevels, heq, hlt]
        rw [hstep, levelAt,
          find?_cons_true (fun l : PriceLevel => decide (l.price = o.price))
            ⟨o.price, o.remaining_qty, [o]⟩ (lvl :: rest) (by simp)]
      · have hrec := ih hs.2
        have hstep : insertIntoLevels lt o (lvl :: rest) =
            lvl :: insertIntoLevels lt o rest := by
          simp [insertIntoLevels, heq, hlt]
        rw [hstep, levelAt,
          find?_cons_false (fun l : PriceLevel => decide (l.price = o.price))
            lvl (insertIntoLevels lt o rest) hskip]
        have hlhs : levelAt (lvl :: rest) o.price = levelAt rest o.price := by
          rw [levelAt,
            find?_cons_false (fun l : PriceLevel => decide (l.price = o.price))
              lvl rest hskip, levelAt]
        rw [hlhs]
        exact hrec

theorem levelAt_insert_other (lt : Price → Price → Bool) (o : Order)
    (p : Price) (hp : p ≠ o.price) :
    ∀ levels : List PriceLevel,
      levelAt (insertIntoLevels lt o levels) p = levelAt levels p := by
  intro levels
  have hop : (fun l : PriceLevel => decide (l.price = p))
      ⟨o.price, o.remaining_qty, [o]⟩ = false := by
    simp only [decide_eq_false_iff_not]
    exact fun h => hp h.symm
  induction levels with
  | nil =>
    rw [insertIntoLevels, levelAt, levelAt,
      find?_cons_false (fun l : PriceLevel => decide (l.price = p))
        ⟨o.price, o.remaining_qty, [o]⟩ [] hop]
  | cons lvl rest ih =>
    by_cases heq : o.price = lvl.price
    · have hlp : (fun l : PriceLevel => decide (l.price = p)) lvl = false := by
        simp only [decide_eq_false_iff_not]
        exact fun h => hp ((heq.trans h).symm)
      have hstep : insertIntoLevels lt o (lvl :: rest) =
          { lvl with
            total_quantity := lvl.total_quantity + o.remaining_qty
            orders := lvl.orders ++ [o] } :: rest := by
        simp [insertIntoLevels, heq]
      rw [hstep, levelAt,
        find?_cons_false (fun l : PriceLevel => decide (l.price = p))
          { lvl with
            total_quantity := lvl.total_quantity + o.remaining_qty
            orders := lvl.orders ++ [o] } rest (by simpa using hlp),
        levelAt,
        find?_cons_false (fun l : PriceLevel => decide (l.price = p))
          lvl rest hlp]
    · by_cases hlt : lt o.price lvl.price = true
      · have hstep : insertIntoLevels lt o (lvl :: rest) =
            ⟨o.price, o.remaining_qty, [o]⟩ :: lvl :: rest := by
          simp [insertIntoLevels, heq, hlt]
        rw [hstep, levelAt,
          find?_cons_false (fun l : PriceLevel => decide (l.price = p))
            ⟨o.price, o.remaining_qty, [o]⟩ (lvl :: rest) hop, levelAt]
      · have hstep : insertIntoLevels lt o (lvl :: rest) =
            lvl :: insertIntoLevels lt o rest := by
          simp [insertIntoLevels, heq, hlt]
        rw [hstep]
        by_cases hl : (fun l : PriceLevel => decide (l.price = p)) lvl = true
        · rw [levelAt,
            find?_cons_true (fun l : PriceLevel => decide (l.price = p))
              lvl (insertIntoLevels lt o rest) hl,
            levelAt,
            find?_cons_true (fun l : PriceLevel => decide (l.price = p))
              lvl rest hl]
        · have hl' : (fun l : PriceLevel => decide (l.price = p)) lvl =
              false := by
            simpa using hl
          rw [levelAt,
            find?_cons_false (fun l : PriceLevel => decide (l.price = p))
              lvl (insertIntoLevels lt o rest) hl',
            levelAt,
            find?_cons_false (fun l : PriceLevel => decide (l.price = p))
              lvl rest hl']
          exact ih

theorem lookupFind_cons_ne (l : List (OrderId × OrderLocation))
    (e : OrderId × OrderLocation) (i : OrderId) (h : e.1 ≠ i) :
    lookupFind (e :: l) i = lookupFind l i := by
  cases e; simp_all [lookupFind]

/-- C7: `addOrder` fails exactly on `remaining ≤ 0`, `price < 0` or a
duplicate resting id, changing nothing on failure; on success it appends
the order to the tail of its price level (creating the level when absent),
grows the level total by `remaining`, leaves every other level and the
whole opposite side alone, and adds the ID-index entry without touching
the others. -/
theorem addOrder_characterization (b : Book) (o : Order)
    (hbids : sortedLevels bidLt b.bids)
    (hasks : sortedLevels askLt b.asks) :
    ((b.addOrder o).1 = false ↔
      o.remaining_qty ≤ 0 ∨ o.price < 0 ∨
        (lookupFind b.order_lookup o.id).isSome = true) ∧
    ((b.addOrder o).1 = false → (b.addOrder o).2 = b) ∧
    ((b.addOrder o).1 = true →
      levelAt ((b.addOrder o).2.sideLevels o.side) o.price =
        some (match levelAt (b.sideLevels o.side) o.price with
          | none => ⟨o.price, o.remaining_qty, [o]⟩
          | some lvl =>
            ⟨lvl.price, lvl.total_quantity + o.remaining_qty,
              lvl.orders ++ [o]⟩) ∧
      (∀ p : Price, p ≠ o.price →
        levelAt ((b.addOrder o).2.sideLevels o.side) p =
          levelAt (b.sideLevels o.side) p) ∧
      (b.addOrder o).2.sideLevels (otherSide o.side) =
        b.sideLevels (otherSide o.side) ∧
      lookupFind (b.addOrder o).2.order_lookup o.id =
        some ⟨o.side, o.price⟩ ∧
      (∀ i : OrderId, i ≠ o.id →
        lookupFind (b.addOrder o).2.order_lookup i =
          lookupFind b.order_lookup i)) := by
  by_cases hv : isValidOrder o
  · by_cases hdup : (lookupFind b.order_lookup o.id).isSome
    · have hres : b.addOrder o = (false, b) := by
        simp [Book.addOrder, hv, hdup]
      refine ⟨?_, ?_, ?_⟩
      · simp [hres, hdup]
      · intro _; simp [hres]
      · intro habs; rw [hres] at habs; exact absurd habs (by simp)
    · have hval : o.remaining_qty > 0 ∧ (0 : Rat) ≤ o.price := by
        have := hv
        rw [isValidOrder, Bool.and_eq_true] at this
        constructor
        · simpa using this.1
        · simpa using this.2
      cases hside : o.side with
      | Buy =>
        have hres : b.addOrder o =
            (true,
             { b with
               bids := insertIntoLevels bidLt o b.bids
               order_lookup :=
                 (o.id, ⟨Side.Buy, o.price⟩) :: b.order_lookup }) := by
          simp [Book.addOrder, hv, hdup, hside]
        refine ⟨?_, ?_, ?_⟩
        · simp [hres, hdup, not_lt.mpr hval.2, not_le.mpr hval.1]
        · intro habs; rw [hres] at habs; exact absurd habs (by simp)
        · intro _
          refine ⟨?_, ?_, ?_, ?_, ?_⟩
          · rw [hres]
            simpa [Book.sideLevels, hside] using
              levelAt_insert_self bidLt
                (fun a c h => ne_of_gt (by simpa [bidLt] using h))
                (fun a c d hab hbc => by
                  simp only [bidLt, decide_eq_true_eq] at hab hbc ⊢
                  exact lt_trans hbc hab)
                o b.bids hbids
          · intro p hp
            rw [hres]
            simpa [Book.sideLevels, hside] using
              levelAt_insert_other bidLt o p hp b.bids
          · rw [hres]; simp [Book.sideLevels, hside, otherSide]
          · rw [hres]; simp [lookupFind]
          · intro i hi
            rw [hres]
            exact lookupFind_cons_ne _ _ _ (fun h => hi h.symm)
      | Sell =>
        have hres : b.addOrder o =
            (true,
             { b with
               asks := insertIntoLevels askLt o b.asks
               order_lookup :=
                 (o.id, ⟨Side.Sell, o.price⟩) :: b.order_lookup }) := by
          simp [Book.addOrder, hv, hdup, hside]
        refine ⟨?_, ?_, ?_⟩
        · simp [hres, hdup, not_lt.mpr hval.2, not_le.mpr hval.1]
        · intro habs; rw [hres] at habs; exact absurd habs (by simp)
        · intro _
          refine ⟨?_, ?_, ?_, ?_, ?_⟩
          · rw [hres]
            simpa [Book.sideLevels, hside] using
              levelAt_insert_self askLt
                (fun a c h => ne_of_lt (by simpa [askLt] using h))
                (fun a c d hab hbc => by
                  simp only [askLt, decide_eq_true_eq] at hab hbc ⊢
                  exact lt_trans hab hbc)
                o b.asks hasks
          · intro p hp
            rw [hres]
            simpa [Book.sideLevels, hside] using
              levelAt_insert_other askLt o p hp b.asks
          · rw [hres]; simp [Book.sideLevels, hside, otherSide]
          · rw [hres]; simp [lookupFind]
          · intro i hi
            rw [hres]
            exact lookupFind_cons_ne _ _ _ (fun h => hi h.symm)
  · have hres : b.addOrder o = (false, b) := by simp [Book.addOrder, hv]
    have hf : o.remaining_qty ≤ 0 ∨ o.price < 0 := by
      rw [isValidOrder, Bool.and_eq_true, not_and_or] at hv
      rcases hv with h | h
      · left; simpa [not_lt] using h
      · right; simpa [not_le] using h
    refine ⟨?_, ?_, ?_⟩
    · simp only [hres]
      constructor
      · intro _; rcases hf with h | h
        · exact Or.inl h
        · exact Or.inr (Or.inl h)
      · intro _; trivial
    · intro _; simp [hres]
    · intro habs; rw [hres] at habs; exact absurd habs (by simp)

/-- A one-order book used as the concrete instance for the `addOrder`
characterization: id 1 resting, 100 at 150 on the bid side. -/
def c7Book : Book :=
  ⟨"AAPL",
   [⟨150, 100, [mkOrder 1 "AAPL" Side.Buy OrderType.Limit 150 100]⟩],
   [],
   [(1, ⟨Side.Buy, 150⟩)]⟩

/-- Closed instance of `addOrder_characterization`: adding a second buy of
50 at 150 to `c7Book` appends it to the tail of the 150 level and grows
the total to 150. -/
theorem addOrder_characterization_witness :
    levelAt (((c7Book.addOrder
        (mkOrder 2 "AAPL" Side.Buy OrderType.Limit 150 50)).2).sideLevels
        Side.Buy) 150 =
      some ⟨150, 150,
        [mkOrder 1 "AAPL" Side.Buy OrderType.Limit 150 100,
         mkOrder 2 "AAPL" Side.Buy OrderType.Limit 150 50]⟩ := by
  have h := ((addOrder_characterization c7Book
    (mkOrder 2 "AAPL" Side.Buy OrderType.Limit 150 50)
    (by simp [sortedLevels, c7Book])
    (by simp [sortedLevels, c7Book])).2.2 (by decide)).1
  exact h.trans (by decide)

/-! ## C9: a failed price-changing modify deletes the order -/

theorem lookupFind_eq_none_of_not_mem (l : List (OrderId × OrderLocation))
    (id : OrderId) (h : id ∉ l.map Prod.fst) : lookupFind l id = none := by
  induction l with
  | nil => rfl
  | cons hd tl ih =>
    simp only [List.map_cons, List.mem_cons, not_or] at h
    rw [lookupFind]
    cases hd with
    | mk i loc =>
      rw [if_neg (by simpa using fun he : i = id => h.1 he.symm)]
      exact ih h.2

theorem lookupFind_erase_self (l : List (OrderId × OrderLocation))
    (id : OrderId) (hnd : (l.map Prod.fst).Nodup) :
    lookupFind (lookupErase l id) id = none := by
  induction l with
  | nil => rfl
  | cons hd tl ih =>
    simp only [List.map_cons, List.nodup_cons] at hnd
    cases hd with
    | mk i loc =>
      by_cases h : i = id
      · rw [lookupErase, if_pos h]
        exact lookupFind_eq_none_of_not_mem tl id (h ▸ hnd.1)
      · rw [lookupErase, if_neg h, lookupFind, if_neg h]
        exact ih hnd.2

/-- C9: on a resting order, `modifyOrder` with a changed positive price
first cancels, then re-adds; when the re-add's validation fails — here
because the requested `new_quantity` does not exceed the already-filled
count, leaving `remaining ≤ 0` — the call returns false with the order
already removed: it is no longer reachable through `getOrder`. -/
theorem failed_price_modify_deletes_order (b : Book) (id : OrderId)
    (loc : OrderLocation) (old : Order) (np : Price) (nq : Quantity)
    (now : Nat) (hnd : (b.order_lookup.map Prod.fst).Nodup)
    (hlook : lookupFind b.order_lookup id = some loc)
    (hfind : findOrderInLevels (b.sideLevels loc.side) loc.price id =
      some old)
    (hp : np > 0) (hpne : np ≠ loc.price) (hq : nq > 0)
    (hle : nq ≤ old.filled_qty) :
    (b.modifyOrder id np nq now).1 = false ∧
    (b.modifyOrder id np nq now).2.getOrder id = none := by
  obtain ⟨lside, lprice⟩ := loc
  have hcancel : (b.cancelOrder id).2.order_lookup =
      lookupErase b.order_lookup id := by
    rw [Book.cancelOrder, hlook]
    cases lside <;> rfl
  have hgone : lookupFind ((b.cancelOrder id).2.order_lookup) id = none := by
    rw [hcancel]
    exact lookupFind_erase_self b.order_lookup id hnd
  have hinvalid : isValidOrder
      { old with
        price := np
        quantity := if nq > 0 then nq else old.quantity
        timestamp := now } = false := by
    have hrem : nq - old.filled_qty ≤ 0 := sub_nonpos.mpr hle
    simp [isValidOrder, Order.remaining_qty, hq, not_lt.mpr hrem]
  have hmod : b.modifyOrder id np nq now =
      ((b.cancelOrder id).2.addOrder
        { old with
          price := np
          quantity := if nq > 0 then nq else old.quantity
          timestamp := now }) := by
    rw [Book.modifyOrder, hlook]
    cases lside
    · have hf : findOrderInLevels b.bids lprice id = some old := by
        simpa [Book.sideLevels] using hfind
      dsimp only
      rw [hf]
      simp [hp, hpne, hq]
    · have hf : findOrderInLevels b.asks lprice id = some old := by
        simpa [Book.sideLevels] using hfind
      dsimp only
      rw [hf]
      simp [hp, hpne, hq]
  have hadd : (b.cancelOrder id).2.addOrder
      { old with
        price := np
        quantity := if nq > 0 then nq else old.quantity
        timestamp := now } = (false, (b.cancelOrder id).2) := by
    rw [Book.addOrder, hinvalid]
    simp
  rw [hmod, hadd]
  refine ⟨rfl, ?_⟩
  rw [Book.getOrder, hgone]

/-- A book with a resting buy of 10 at 150, already filled for 6, used as
the concrete instance for the failed price-changing modify. -/
def c9Book : Book :=
  ⟨"AAPL",
   [⟨150, 4, [{ mkOrder 1 "AAPL" Side.Buy OrderType.Limit 150 10 with
       filled_qty := 6, status := OrderStatus.PartiallyFilled }]⟩],
   [],
   [(1, ⟨Side.Buy, 150⟩)]⟩

/-- Closed instance of `failed_price_modify_deletes_order`: moving the
partially-filled order 1 to price 149 with `new_quantity = 5 ≤ filled = 6`
fails and loses the order. -/
theorem failed_price_modify_deletes_order_witness :
    (c9Book.modifyOrder 1 149 5 7).1 = false ∧
    (c9Book.modifyOrder 1 149 5 7).2.getOrder 1 = none :=
  failed_price_modify_deletes_order c9Book 1 ⟨Side.Buy, 150⟩
    { mkOrder 1 "AAPL" Side.Buy OrderType.Limit 150 10 with
      filled_qty := 6, status := OrderStatus.PartiallyFilled }
    149 5 7 (by decide) (by decide) (by decide) (by decide) (by decide)
    (by decide) (by decide)

/-! ## C6: the level-sum and no-empty-level invariant -/

theorem insertIntoLevels_all_levelOk (lt : Price → Price → Bool) (o : Order) :
    ∀ levels : List PriceLevel, levels.all levelOk = true →
      (insertIntoLevels lt o levels).all levelOk = true := by
  intro levels
  induction levels with
  | nil =>
    intro _
    simp [insertIntoLevels, levelOk, sumRemaining]
  | cons lvl rest ih =>
    intro h
    rw [List.all_cons, Bool.and_eq_true] at h
    by_cases heq : o.price = lvl.price
    · rw [insertIntoLevels, if_pos heq, List.all_cons, Bool.and_eq_true]
      refine ⟨?_, h.2⟩
      have hl := h.1
      rw [levelOk, Bool.and_eq_true] at hl ⊢
      constructor
      · have := hl.1
        simp only [decide_eq_true_eq] at this ⊢
        simp [sumRemaining, this]
      · simp
    · by_cases hlt : lt o.price lvl.price = true
      · rw [insertIntoLevels, if_neg heq, if_pos hlt]
        rw [List.all_cons, Bool.and_eq_true]
        refine ⟨?_, by rw [List.all_cons, Bool.and_eq_true]; exact h⟩
        simp [levelOk, sumRemaining]
      · rw [insertIntoLevels, if_neg heq, if_neg hlt, List.all_cons,
          Bool.and_eq_true]
        exact ⟨h.1, ih h.2⟩

theorem addOrder_preserves_levelsOk (b : Book) (o : Order)
    (h : b.levelsOk = true) : (b.addOrder o).2.levelsOk = true := by
  rw [Book.levelsOk, Bool.and_eq_true] at h
  by_cases hv : isValidOrder o
  · by_cases hdup : (lookupFind b.order_lookup o.id).isSome
    · simp [Book.addOrder, hv, hdup, Book.levelsOk, h.1, h.2]
    · cases hside : o.side
      · simp [Book.addOrder, hv, hdup, hside, Book.levelsOk,
          insertIntoLevels_all_levelOk bidLt o b.bids h.1, h.2]
      · simp [Book.addOrder, hv, hdup, hside, Book.levelsOk, h.1,
          insertIntoLevels_all_levelOk askLt o b.asks h.2]
  · simp [Book.addOrder, hv, Book.levelsOk, h.1, h.2]

theorem removeOrderById_sum (id : OrderId) :
    ∀ (orders : List Order) (o : Order) (orders' : List Order),
      removeOrderById orders id = (some o, orders') →
      sumRemaining orders = o.remaining_qty + sumRemaining orders' := by
  intro orders
  induction orders with
  | nil => intro o orders' h; simp [removeOrderById] at h
  | cons hd tl ih =>
    intro o orders' h
    rw [removeOrderById] at h
    by_cases hh : hd.id = id
    · rw [if_pos hh, Prod.mk.injEq] at h
      obtain ⟨ho, horders⟩ := h
      injection ho with ho
      subst ho
      subst horders
      simp [sumRemaining]
    · rw [if_neg hh] at h
      dsimp only at h
      rw [Prod.mk.injEq] at h
      obtain ⟨h1, h2⟩ := h
      subst h2
      have hpair : removeOrderById tl id =
          (some o, (removeOrderById tl id).2) := by
        rw [← h1]
      have hrec := ih o (removeOrderById tl id).2 hpair
      simp only [sumRemaining, List.map_cons, List.sum_cons] at hrec ⊢
      linarith

theorem cancelInLevels_all_levelOk (price : Price) (id : OrderId) :
    ∀ levels : List PriceLevel, levels.all levelOk = true →
      (cancelInLevels levels price id).all levelOk = true := by
  intro levels
  induction levels with
  | nil => intro _; simp [cancelInLevels]
  | cons lvl rest ih =>
    intro h
    rw [List.all_cons, Bool.and_eq_true] at h
    by_cases hp : lvl.price = price
    · rw [cancelInLevels, if_pos hp]
      cases hrem : removeOrderById lvl.orders id with
      | mk f orders' =>
        cases f with
        | none => simp [List.all_cons, h.1, h.2]
        | some o =>
          by_cases he : orders'.isEmpty
          · simp [he, h.2]
          · have hsum := removeOrderById_sum id lvl.orders o orders' hrem
            have hl := h.1
            simp only [levelOk, Bool.and_eq_true] at hl
            have hts : lvl.total_quantity = sumRemaining lvl.orders := by
              simpa using hl.1
            dsimp only
            rw [if_neg he, List.all_cons, Bool.and_eq_true]
            refine ⟨?_, h.2⟩
            simp only [levelOk, Bool.and_eq_true]
            constructor
            · simp only [decide_eq_true_eq]
              rw [hts, hsum]
              ring
            · simpa using he
    · rw [cancelInLevels, if_neg hp, List.all_cons, Bool.and_eq_true]
      exact ⟨h.1, ih h.2⟩

theorem cancelOrder_preserves_levelsOk (b : Book) (id : OrderId)
    (h : b.levelsOk = true) : (b.cancelOrder id).2.levelsOk = true := by
  rw [Book.levelsOk, Bool.and_eq_true] at h
  rw [Book.cancelOrder]
  cases hlook : lookupFind b.order_lookup id with
  | none => simpa [Book.levelsOk, Bool.and_eq_true] using h
  | some loc =>
    cases loc with
    | mk side price =>
      cases side
      · simpa [Book.levelsOk, Bool.and_eq_true, h.2] using
          cancelInLevels_all_levelOk price id b.bids h.1
      · simpa [Book.levelsOk, Bool.and_eq_true, h.1] using
          cancelInLevels_all_levelOk price id b.asks h.2

theorem setQuantityInOrders_sum (id : OrderId) (nq : Quantity) :
    ∀ (orders : List Order) (old : Order),
      orders.find? (fun o => o.id = id) = some old →
      sumRemaining (setQuantityInOrders orders id nq) =
        sumRemaining orders + (nq - old.quantity) := by
  intro orders
  induction orders with
  | nil => intro old h; simp [List.find?] at h
  | cons hd tl ih =>
    intro old h
    by_cases hh : hd.id = id
    · rw [find?_cons_true _ _ _ (by simpa using hh)] at h
      injection h with h
      subst h
      rw [setQuantityInOrders, if_pos hh]
      simp [sumRemaining, Order.remaining_qty]
      ring
    · rw [find?_cons_false _ _ _ (by simpa using hh)] at h
      rw [setQuantityInOrders, if_neg hh]
      have := ih old h
      simp only [sumRemaining, List.map_cons, List.sum_cons] at this ⊢
      rw [show ((setQuantityInOrders tl id nq).map Order.remaining_qty).sum =
        (tl.map Order.remaining_qty).sum + (nq - old.quantity) from this]
      ring

theorem setQuantityInOrders_ne_nil (id : OrderId) (nq : Quantity)
    (orders : List Order) (h : orders ≠ []) :
    setQuantityInOrders orders id nq ≠ [] := by
  cases orders with
  | nil => exact absurd rfl h
  | cons hd tl =>
    rw [setQuantityInOrders]
    by_cases hh : hd.id = id
    · rw [if_pos hh]; exact List.cons_ne_nil _ _
    · rw [if_neg hh]; exact List.cons_ne_nil _ _

theorem setQuantityInLevels_all_levelOk (price : Price) (id : OrderId)
    (nq : Quantity) (old : Order) :
    ∀ levels : List PriceLevel,
      findOrderInLevels levels price id = some old →
      levels.all levelOk = true →
      (setQuantityInLevels levels price id nq (nq - old.quantity)).all
        levelOk = true := by
  intro levels
  induction levels with
  | nil => intro hf _; simp [findOrderInLevels] at hf
  | cons lvl rest ih =>
    intro hf h
    rw [List.all_cons, Bool.and_eq_true] at h
    by_cases hp : lvl.price = price
    · rw [findOrderInLevels, if_pos hp] at hf
      rw [setQuantityInLevels, if_pos hp, List.all_cons, Bool.and_eq_true]
      refine ⟨?_, h.2⟩
      have hl := h.1
      rw [levelOk, Bool.and_eq_true] at hl ⊢
      constructor
      · have hts : lvl.total_quantity = sumRemaining lvl.orders := by
          simpa using hl.1
        simp only [decide_eq_true_eq]
        rw [setQuantityInOrders_sum id nq lvl.orders old hf, hts]
      · have hne : lvl.orders ≠ [] := by
          intro he
          rw [he] at hf
          simp [List.find?] at hf
        simpa using setQuantityInOrders_ne_nil id nq lvl.orders hne
    · rw [findOrderInLevels, if_neg hp] at hf
      rw [setQuantityInLevels, if_neg hp, List.all_cons, Bool.and_eq_true]
      exact ⟨h.1, ih hf h.2⟩

theorem modifyOrder_preserves_levelsOk (b : Book) (id : OrderId)
    (np : Price) (nq : Quantity) (now : Nat) (h : b.levelsOk = true) :
    (b.modifyOrder id np nq now).2.levelsOk = true := by
  rw [Book.modifyOrder]
  cases hlook : lookupFind b.order_lookup id with
  | none => exact h
  | some loc =>
    cases loc with
    | mk side price =>
      cases side
      · dsimp only
        cases hf : findOrderInLevels b.bids price id with
        | none => exact h
        | some old =>
          dsimp only
          by_cases hc : np > 0 ∧ np ≠ price
          · rw [if_pos hc]
            exact addOrder_preserves_levelsOk _ _
              (cancelOrder_preserves_levelsOk b id h)
          · rw [if_neg hc]
            by_cases hc2 : nq > 0 ∧ nq ≠ old.quantity
            · rw [if_pos hc2]
              rw [Book.levelsOk, Bool.and_eq_true] at h ⊢
              exact ⟨setQuantityInLevels_all_levelOk price id nq old
                b.bids hf h.1, h.2⟩
            · rw [if_neg hc2]; exact h
      · dsimp only
        cases hf : findOrderInLevels b.asks price id with
        | none => exact h
        | some old =>
          dsimp only
          by_cases hc : np > 0 ∧ np ≠ price
          · rw [if_pos hc]
            exact addOrder_preserves_levelsOk _ _
              (cancelOrder_preserves_levelsOk b id h)
          · rw [if_neg hc]
            by_cases hc2 : nq > 0 ∧ nq ≠ old.quantity
            · rw [if_pos hc2]
              rw [Book.levelsOk, Bool.and_eq_true] at h ⊢
              exact ⟨h.1, setQuantityInLevels_all_levelOk price id nq old
                b.asks hf h.2⟩
            · rw [if_neg hc2]; exact h

theorem fillOrders_total (aid : OrderId) (sym : Symbol) (side : Side)
    (price : Price) :
    ∀ (orders : List Order) (remaining total : Quantity),
      total = sumRemaining orders →
      (fillOrders aid sym side price remaining total orders).total =
        sumRemaining
          (fillOrders aid sym side price remaining total orders).orders := by
  intro orders
  induction orders with
  | nil =>
    intro remaining total h
    simpa [fillOrders, sumRemaining] using h
  | cons passive rest ih =>
    intro remaining total h
    rw [fillOrders]
    by_cases hr : remaining ≤ 0
    · rw [if_pos hr]
      exact h
    · rw [if_neg hr]
      dsimp only
      by_cases hfil : (passive.apply_fill
          (min remaining passive.remaining_qty)).is_filled = true
      · rw [if_pos hfil]
        dsimp only
        have hq : min remaining passive.remaining_qty =
            passive.remaining_qty := by
          have h1 : min remaining passive.remaining_qty ≤
              passive.remaining_qty := min_le_right _ _
          have h2 : passive.remaining_qty ≤
              min remaining passive.remaining_qty := by
            simp only [Order.is_filled, Order.apply_fill, ge_iff_le,
              decide_eq_true_eq] at hfil
            have hrq : passive.remaining_qty =
                passive.quantity - passive.filled_qty := rfl
            linarith [hfil]
          exact le_antisymm h1 h2
        have hsum : total - min remaining passive.remaining_qty =
            sumRemaining rest := by
          rw [hq, h]
          simp only [sumRemaining, List.map_cons, List.sum_cons]
          ring
        exact ih (remaining - min remaining passive.remaining_qty)
          (total - min remaining passive.remaining_qty) hsum
      · rw [if_neg hfil]
        dsimp only
        have hrem' : (passive.apply_fill
            (min remaining passive.remaining_qty)).remaining_qty =
            passive.remaining_qty - min remaining passive.remaining_qty := by
          simp only [Order.apply_fill, Order.remaining_qty]
          ring
        simp only [sumRemaining, List.map_cons, List.sum_cons] at h ⊢
        rw [hrem']
        linarith

theorem fillLevels_all_levelOk (aid : OrderId) (sym : Symbol) (side : Side)
    (limit : Price) :
    ∀ (levels : List PriceLevel) (remaining : Quantity),
      levels.all levelOk = true →
      (fillLevels aid sym side limit remaining levels).levels.all levelOk =
        true := by
  intro levels
  induction levels with
  | nil => intro remaining h; simpa [fillLevels] using h
  | cons lvl rest ih =>
    intro remaining h
    rw [List.all_cons, Bool.and_eq_true] at h
    rw [fillLevels]
    by_cases hr : remaining ≤ 0
    · rw [if_pos hr]
      dsimp only
      rw [List.all_cons, Bool.and_eq_true]
      exact h
    · rw [if_neg hr]
      by_cases hg : gateBlocks side limit lvl.price = true
      · rw [if_pos hg]
        dsimp only
        rw [List.all_cons, Bool.and_eq_true]
        exact h
      · rw [if_neg hg]
        dsimp only
        by_cases he : (fillOrders aid sym side lvl.price remaining
            lvl.total_quantity lvl.orders).orders.isEmpty = true
        · rw [if_pos he]
          dsimp only
          exact ih _ h.2
        · rw [if_neg he]
          dsimp only
          rw [List.all_cons, Bool.and_eq_true]
          refine ⟨?_, h.2⟩
          have hts : lvl.total_quantity = sumRemaining lvl.orders := by
            have hl := h.1
            simp only [levelOk, Bool.and_eq_true] at hl
            simpa using hl.1
          have htot := fillOrders_total aid sym side lvl.price lvl.orders
            remaining lvl.total_quantity hts
          simp only [levelOk, Bool.and_eq_true]
          constructor
          · simpa using htot
          · simpa using he

theorem executeFill_preserves_levelsOk (b : Book) (side : Side)
    (q : Quantity) (limit : Price) (aid : OrderId)
    (h : b.levelsOk = true) :
    (b.executeFill side q limit aid).2.levelsOk = true := by
  rw [Book.levelsOk, Bool.and_eq_true] at h
  cases side
  · simp only [Book.executeFill]
    rw [Book.levelsOk]
    simp [h.1, fillLevels_all_levelOk aid b.symbol Side.Buy limit b.asks q
      h.2]
  · simp only [Book.executeFill]
    rw [Book.levelsOk]
    simp [h.2, fillLevels_all_levelOk aid b.symbol Side.Sell limit b.bids q
      h.1]

/-- The books reachable from a fresh book by any sequence of `addOrder`,
`cancelOrder`, `modifyOrder` and `executeFill` calls. -/
inductive Reachable : Book → Prop where
  | empty (sym : Symbol) : Reachable (Book.empty sym)
  | add (b : Book) (o : Order) : Reachable b → Reachable (b.addOrder o).2
  | cancel (b : Book) (id : OrderId) :
      Reachable b → Reachable (b.cancelOrder id).2
  | modify (b : Book) (id : OrderId) (np : Price) (nq : Quantity)
      (now : Nat) : Reachable b → Reachable (b.modifyOrder id np nq now).2
  | fill (b : Book) (side : Side) (q : Quantity) (limit : Price)
      (aid : OrderId) : Reachable b →
      Reachable (b.executeFill side q limit aid).2

/-- C6: in every book state reachable by any sequence of `addOrder`,
`cancelOrder`, `modifyOrder` and `executeFill`, every price level on
either side carries `total_quantity = Σ remaining over its FIFO` and no
empty level is present — an operation that empties a level removes it
within the same call. -/
theorem reachable_levels_invariant (b : Book) (h : Reachable b) :
    b.levelsOk = true := by
  induction h with
  | empty sym => rfl
  | add b o _ ih => exact addOrder_preserves_levelsOk b o ih
  | cancel b id _ ih => exact cancelOrder_preserves_levelsOk b id ih
  | modify b id np nq now _ ih =>
    exact modifyOrder_preserves_levelsOk b id np nq now ih
  | fill b side q limit aid _ ih =>
    exact executeFill_preserves_levelsOk b side q limit aid ih

/-- Closed instance of `reachable_levels_invariant`: the invariant holds
after resting a sell of 100 at 150 and partially consuming it with a buy
aggressor for 30. -/
theorem reachable_levels_invariant_witness :
    ((((Book.empty "AAPL").addOrder
        (mkOrder 1 "AAPL" Side.Sell OrderType.Limit 150 100)).2.executeFill
        Side.Buy 30 150 2).2).levelsOk = true :=
  reachable_levels_invariant _
    (Reachable.fill _ Side.Buy 30 150 2
      (Reachable.add _ _ (Reachable.empty "AAPL")))

/-! ## C1: executeFill refines the spec's §4.2 match algorithm

`specConsumeLevel` / `specMatchLoop` transcribe the spec's own wording of
the `match` primitive (step 2 of §4.2), to be compared against the
source-translated `fillOrders` / `fillLevels`. -/

/-- Spec §4.2, step 2c, transcribed from the spec text: while
`remaining > 0` and the level has orders, the head order `P` fills
`q = min(remaining, P.remaining)` at the level's price; the fill
`(aggressor_id, P.id, symbol, side, L.price, q)` is emitted, `q` is
applied to `P` and subtracted from the level total and from `remaining`;
if `P` is fully filled (all of its remaining quantity was taken, i.e.
`P.remaining ≤ remaining`) the head is evicted and its id recorded for
ID-index removal. -/
def specConsumeLevel (aggressor_id : OrderId) (sym : Symbol) (side : Side)
    (price : Price) : Quantity → Quantity → List Order → LevelFillResult
  | remaining, total, [] => ⟨[], remaining, total, [], []⟩
  | remaining, total, P :: tail =>
    if 0 < remaining then
      let q := min remaining P.remaining_qty
      let f : Fill := ⟨aggressor_id, P.id, sym, side, price, q⟩
      if P.remaining_qty ≤ remaining then
        let r := specConsumeLevel aggressor_id sym side price
          (remaining - q) (total - q) tail
        ⟨f :: r.fills, r.remaining, r.total, r.orders, P.id :: r.removed⟩
      else
        ⟨[f], remaining - q, total - q, P.apply_fill q :: tail, []⟩
    else ⟨[], remaining, total, P :: tail, []⟩

/-- Spec §4.2, steps 2a–2d, transcribed from the spec text: while
`remaining > 0` and the opposite side is non-empty, take the best (front)
level `L`; stop at the price gate when a positive limit price is violated
(`Buy` and `L.price > limit`, or `Sell` and `L.price < limit`); consume
`L`; evict `L` when it is left empty. -/
def specMatchLoop (aggressor_id : OrderId) (sym : Symbol) (side : Side)
    (limit_price : Price) : Quantity → List PriceLevel → BookFillResult
  | remaining, [] => ⟨[], remaining, [], []⟩
  | remaining, L :: rest =>
    if 0 < remaining then
      if limit_price > 0 ∧ ((side = Side.Buy ∧ L.price > limit_price) ∨
          (side = Side.Sell ∧ L.price < limit_price)) then
        ⟨[], remaining, L :: rest, []⟩
      else
        let r := specConsumeLevel aggressor_id sym side L.price remaining
          L.total_quantity L.orders
        if r.orders.isEmpty then
          let r2 := specMatchLoop aggressor_id sym side limit_price
            r.remaining rest
          ⟨r.fills ++ r2.fills, r2.remaining, r2.levels,
            r.removed ++ r2.removed⟩
        else
          ⟨r.fills, r.remaining, ⟨L.price, r.total, r.orders⟩ :: rest,
            r.removed⟩
    else ⟨[], remaining, L :: rest, []⟩

/-- The side the aggressor consumes: asks for a Buy, bids for a Sell. -/
def oppositeLevels (b : Book) : Side → List PriceLevel
  | Side.Buy => b.asks
  | Side.Sell => b.bids

/-- The spec's whole `match` primitive assembled on a book: run the loop
on the opposite side from best outward and erase the recorded ids from
the ID index. -/
def specExecute (b : Book) (side : Side) (quantity : Quantity)
    (limit_price : Price) (aggressor_id : OrderId) : List Fill × Book :=
  let r := specMatchLoop aggressor_id b.symbol side limit_price quantity
    (oppositeLevels b side)
  match side with
  | Side.Buy =>
    (r.fills,
     { b with
       asks := r.levels
       order_lookup := r.removed.foldl lookupErase b.order_lookup })
  | Side.Sell =>
    (r.fills,
     { b with
       bids := r.levels
       order_lookup := r.removed.foldl lookupErase b.order_lookup })

theorem apply_fill_is_filled_iff (P : Order) (remaining : Quantity) :
    (P.apply_fill (min remaining P.remaining_qty)).is_filled = true ↔
      P.remaining_qty ≤ remaining := by
  simp only [Order.is_filled, Order.apply_fill, ge_iff_le,
    decide_eq_true_eq]
  have hrq : P.remaining_qty = P.quantity - P.filled_qty := rfl
  constructor
  · intro h
    have hm : min remaining P.remaining_qty ≤ remaining := min_le_left _ _
    linarith
  · intro h
    have hm : min remaining P.remaining_qty = P.remaining_qty :=
      min_eq_right h
    rw [hm]
    linarith

theorem fillOrders_eq_specConsumeLevel (aid : OrderId) (sym : Symbol)
    (side : Side) (price : Price) :
    ∀ (orders : List Order) (remaining total : Quantity),
      fillOrders aid sym side price remaining total orders =
        specConsumeLevel aid sym side price remaining total orders := by
  intro orders
  induction orders with
  | nil => intro remaining total; rfl
  | cons P tail ih =>
    intro remaining total
    rw [fillOrders, specConsumeLevel]
    by_cases hr : remaining ≤ 0
    · rw [if_pos hr, if_neg (not_lt.mpr hr)]
    · rw [if_neg hr, if_pos (not_le.mp hr)]
      dsimp only
      by_cases hfil : P.remaining_qty ≤ remaining
      · rw [if_pos ((apply_fill_is_filled_iff P remaining).mpr hfil),
          if_pos hfil, ih]
      · rw [if_neg
          (fun hc => hfil ((apply_fill_is_filled_iff P remaining).mp hc)),
          if_neg hfil]

theorem gateBlocks_eq_spec_gate (side : Side) (limit p : Price) :
    gateBlocks side limit p = true ↔
      (limit > 0 ∧ ((side = Side.Buy ∧ p > limit) ∨
        (side = Side.Sell ∧ p < limit))) := by
  cases side <;> simp [gateBlocks]

theorem fillLevels_eq_specMatchLoop (aid : OrderId) (sym : Symbol)
    (side : Side) (limit : Price) :
    ∀ (levels : List PriceLevel) (remaining : Quantity),
      fillLevels aid sym side limit remaining levels =
        specMatchLoop aid sym side limit remaining levels := by
  intro levels
  induction levels with
  | nil => intro remaining; rfl
  | cons L rest ih =>
    intro remaining
    rw [fillLevels, specMatchLoop]
    by_cases hr : remaining ≤ 0
    · rw [if_pos hr, if_neg (not_lt.mpr hr)]
    · rw [if_neg hr, if_pos (not_le.mp hr)]
      by_cases hg : gateBlocks side limit L.price = true
      · rw [if_pos hg,
          if_pos ((gateBlocks_eq_spec_gate side limit L.price).mp hg)]
      · rw [if_neg hg, if_neg
          (fun hc => hg ((gateBlocks_eq_spec_gate side limit L.price).mpr
            hc))]
        dsimp only
        rw [fillOrders_eq_specConsumeLevel aid sym side L.price L.orders
          remaining L.total_quantity]
        by_cases he : (specConsumeLevel aid sym side L.price remaining
            L.total_quantity L.orders).orders.isEmpty = true
        · rw [if_pos he, if_pos he, ih]
        · rw [if_neg he, if_neg he]

/-- C1: `OrderBook::executeFill` computes exactly the spec's §4.2 match
algorithm: levels of the opposite side are consumed from best (front)
outward, stopping at the price gate when a positive limit price is
violated; within a level the head order fills first for
`min(remaining, passive remaining)` at the level's price; fully filled
passive orders and emptied levels are evicted along with their ID-index
entries; and the fills are returned in exactly the order the spec's loop
emits them — strict price priority, FIFO within a level. -/
theorem executeFill_refines_spec_match (b : Book) (side : Side)
    (quantity : Quantity) (limit_price : Price) (aggressor_id : OrderId) :
    b.executeFill side quantity limit_price aggressor_id =
      specExecute b side quantity limit_price aggressor_id := by
  cases side
  · simp only [Book.executeFill, specExecute, oppositeLevels]
    rw [fillLevels_eq_specMatchLoop]
  · simp only [Book.executeFill, specExecute, oppositeLevels]
    rw [fillLevels_eq_specMatchLoop]

end Engine
